import Mathlib

/-!
Verification of the csharg live-capture core against its specification.

The development shallowly embeds the Go sources:
  * `pcapng` package: the pcapng `Option` codec (`NewOption`, `Option.Bytes`)
    and the `StreamEditor` (`Write`, `process`, `processSHB`,
    `shbLenEndianness`) that rewrites the first section header block (SHB).
  * the `TargetCache` (`Set`, `Pod`, `OnNode`, `IsEmpty`, `Clear`) and
    `CompleteTarget` of the csharg package.
  * the graceful websocket closer (`ReadingClientWebsocket.Read` / `Close`)
    of the websock package, modelled as a timed wait (for the `Close`
    time bound) and as an explicit interleaving transition system (for the
    one-shot completion-signal property).

Machine integers are modelled as `Nat` with explicit `% 2^w` where the Go
code can overflow.  Byte strings are `List Nat` (each element a byte value).
Go panics (out-of-range slice indexing, closing a closed channel) are
modelled with `Option` results, `none` meaning a crash.
-/

namespace Csharg

/-! ## Byte-order helpers

Go's `encoding/binary` `ByteOrder` values used by the pcapng package.
`byteAt` models indexing into a byte slice; all uses in the embedded code
are within bounds whenever the Go code does not panic. -/

inductive Endian where
  | big
  | little
deriving DecidableEq, Repr

def byteAt (l : List Nat) (i : Nat) : Nat :=
  (l.get? i).getD 0

/-- `binary.ByteOrder.Uint16`: read a 16-bit value from the first two bytes. -/
def get16 : Endian → List Nat → Nat
  | .big, l => byteAt l 0 * 256 + byteAt l 1
  | .little, l => byteAt l 1 * 256 + byteAt l 0

/-- `binary.ByteOrder.PutUint16`: the two bytes encoding `v % 2^16`. -/
def put16 : Endian → Nat → List Nat
  | .big, v => [v / 256 % 256, v % 256]
  | .little, v => [v % 256, v / 256 % 256]

/-- `binary.ByteOrder.Uint32`: read a 32-bit value from the first four bytes. -/
def get32 (e : Endian) (l : List Nat) : Nat :=
  match e with
  | .big => get16 .big l * 65536 + get16 .big (l.drop 2)
  | .little => get16 .little l + get16 .little (l.drop 2) * 65536

/-- `binary.ByteOrder.PutUint32`: the four bytes encoding `v % 2^32`. -/
def put32 (e : Endian) (v : Nat) : List Nat :=
  match e with
  | .big => put16 .big (v / 65536) ++ put16 .big v
  | .little => put16 .little v ++ put16 .little (v / 65536)

/-- `binary.ByteOrder.PutUint64`: the eight bytes encoding `v % 2^64`. -/
def put64 (e : Endian) (v : Nat) : List Nat :=
  match e with
  | .big => put32 .big (v / 4294967296) ++ put32 .big v
  | .little => put32 .little v ++ put32 .little (v / 4294967296)

/-- Rounding up to the next multiple of 4, as done by the pcapng option
codec for value padding. -/
def align4 (n : Nat) : Nat :=
  if n % 4 = 0 then n else n + (4 - n % 4)

/-! ## pcapng options (`Option` in the Go source; renamed `PcapOption`
because `Option` is taken in Lean) -/

structure PcapOption where
  code : Nat
  value : List Nat
deriving DecidableEq, Repr

/-- `OptEndofOpt` signals the end of options. -/
def OptEndofOpt : Nat := 0

/-- `OptComment` contains a comment in form of an UTF-8 string. -/
def OptComment : Nat := 1

/-- `Option.Bytes`: the octets encoding the option.  The Go code computes
`length := uint16(len(value))` (truncating) and allocates a buffer of
`uint16(4) + length` bytes; when that 16-bit sum wraps below 4,
`PutUint16` panics on the too-short buffer, which we model as `none`. -/
def PcapOption.bytes (o : PcapOption) (e : Endian) : Option (List Nat) :=
  let length := o.value.length % 65536
  if 65532 ≤ length then none
  else some (put16 e o.code ++ put16 e length ++ o.value.take length ++
    (if length % 4 ≠ 0 then List.replicate (4 - length % 4) 0 else []))

/-- `NewOption`: decode one option from the front of `buff`, returning the
decoded option (or `none` at the end-of-options sentinel) and the number of
octets to skip to the next option.  The outer `Option` models the Go slice
out-of-range panics (`buff` shorter than 4, or than `4 + length`). -/
def newOption (buff : List Nat) (e : Endian) : Option (Option PcapOption × Nat) :=
  if buff.length < 4 then none
  else
    let code := get16 e buff
    let length := get16 e (buff.drop 2)
    let skip := align4 (2 + 2 + length)
    if code ≠ OptEndofOpt ∨ length ≠ 0 then
      if buff.length < 4 + length then none
      else some (some ⟨code, (buff.drop 4).take length⟩, skip)
    else some (none, skip)

example : (⟨42, [71, 111]⟩ : PcapOption).bytes .big = some [0, 42, 0, 2, 71, 111, 0, 0] := by
  decide

example : (⟨42, [71, 111]⟩ : PcapOption).bytes .little = some [42, 0, 2, 0, 71, 111, 0, 0] := by
  decide

example : (⟨0, []⟩ : PcapOption).bytes .big = some [0, 0, 0, 0] := by decide

example : newOption [0, 0, 0, 0] .big = some (none, 4) := by decide

example : newOption [0, 42, 0, 2, 71, 111, 0, 0] .big = some (some ⟨42, [71, 111]⟩, 8) := by
  decide

/-! ## Capture targets and the target cache

`api.Target`, restricted to the fields the cache and `CompleteTarget`
consult or copy (`Name`, `Type`, `Prefix`, `NodeName`, `Cluster.UID`,
`CaptureService`, `CapturePort`).  `Type` and `Prefix` are renamed `typ`
and `pfx` (both are unusable identifiers here). -/

structure Target where
  name : String
  typ : String
  pfx : String
  nodename : String
  cluster : Option String
  captureService : String
  capturePort : Nat
deriving DecidableEq, Repr

/-- `targetkey`: prefix and name of a target, with optional node name. -/
structure Targetkey where
  pfx : String
  name : String
  nodename : String
deriving DecidableEq, Repr

/-- The cache's `index` map of `targetkey` to `api.Targets`.  A Go
`api.Targets` is a slice of pointers, so a bucket element is
`Option Target` (`none` being a nil pointer, as produced by
`make(api.Targets, cap)`). -/
def Index : Type := List (Targetkey × List (Option Target))

/-- Go map lookup `tc.index[k]`. -/
def idxFind : Index → Targetkey → Option (List (Option Target))
  | [], _ => none
  | (k', v) :: rest, k => if k' = k then some v else idxFind rest k

/-- Go map assignment `tc.index[k] = v`. -/
def idxSet : Index → Targetkey → List (Option Target) → Index
  | [], k, v => [(k, v)]
  | (k', v') :: rest, k, v =>
    if k' = k then (k, v) :: rest else (k', v') :: idxSet rest k v

/-- One iteration of the loop in `TargetCache.Set`: index the target by
(prefix, name) — appending when the key already exists, otherwise storing
it at slot 0 of a fresh bucket of length `cap` (`make(api.Targets, cap)`
makes a length-`cap` slice of nil pointers) — and then index it by
(prefix, name, nodename), overwriting unconditionally. -/
def setStep (idx : Index) (t : Target) : Index :=
  let k : Targetkey := ⟨t.pfx, t.name, ""⟩
  let c := if t.typ ≠ "pod" then 10 else 1
  let idx :=
    match idxFind idx k with
    | some ttt => idxSet idx k (ttt ++ [some t])
    | none => idxSet idx k (some t :: List.replicate (c - 1) none)
  idxSet idx ⟨t.pfx, t.name, t.nodename⟩ [some t]

/-- The index built by `TargetCache.Set` for a target list. -/
def buildIndex (ts : List Target) : Index :=
  ts.foldl setStep []

/-- `TargetCache`: the authoritative target list plus the derived index. -/
structure TargetCache where
  ts : List Target
  index : Index

/-- `TargetCache.Set`: replace the list and rebuild the index wholesale
(the previous cache contents are discarded entirely). -/
def TargetCache.set (_tc : TargetCache) (ts : List Target) : TargetCache :=
  ⟨ts, buildIndex ts⟩

/-- A cache freshly populated by `Set`. -/
def setCache (ts : List Target) : TargetCache :=
  ⟨ts, buildIndex ts⟩

/-- `TargetCache.IsEmpty`: `len(tc.ts) == 0`. -/
def TargetCache.isEmpty (tc : TargetCache) : Bool :=
  tc.ts.length = 0

/-- `TargetCache.Pod`: look up `targetkey{name: name}` (empty prefix and
node name) and return a match only when the bucket holds exactly one
target of type "pod".  `some t` renders Go's `(t, true)`, `none` renders
`(nil, false)`.  (A length-one bucket holding a nil pointer would make the
Go code dereference nil; such a bucket is never built by `Set`, whose
buckets always carry a real target in slot 0.) -/
def TargetCache.pod (tc : TargetCache) (name : String) : Option Target :=
  match idxFind tc.index ⟨"", name, ""⟩ with
  | some [some t] => if t.typ = "pod" then some t else none
  | _ => none

/-- `TargetCache.OnNode`: look up the full composite key and return a
match only when the bucket holds exactly one target. -/
def TargetCache.onNode (tc : TargetCache) (nodename pfx name : String) : Option Target :=
  match idxFind tc.index ⟨pfx, name, nodename⟩ with
  | some [some t] => some t
  | _ => none

/-- `TargetCache.Clear`: "We're lazy and just empty the list of targets."
The index is left untouched. -/
def TargetCache.clear (tc : TargetCache) : TargetCache :=
  { tc with ts := [] }

/-! ## CompleteTarget -/

/-- The three error kinds `CompleteTarget` can report: "no capture target
specified", "non-existing target ...", and "missing or invalid capture
service routing for target ...". -/
inductive CompleteErr where
  | noTarget
  | nonExisting
  | invalidRouting
deriving DecidableEq, Repr

/-- `strings.ContainsAny(s, "/?%")`. -/
def containsAnyUnsafe (s : String) : Bool :=
  s.data.any fun c => c = '/' ∨ c = '?' ∨ c = '%'

/-- `CompleteTarget`: complete a capture target description so that the
capture service can be addressed.  `none` for the target models a nil
pointer.  When the description already carries a `CaptureService`, no
lookup happens; otherwise pod targets are resolved via `Pod` and all
others via `OnNode`, taking a shallow copy of the cached entry.  In all
non-error cases the final routing check rejects a `CaptureService`
containing any of `/?%`.  (The `opts` parameter of the Go function is
never used by it and is omitted.) -/
def CompleteTarget (t? : Option Target) (ts : TargetCache) : Except CompleteErr Target :=
  match t? with
  | none => .error .noTarget
  | some t =>
    let looked : Except CompleteErr Target :=
      if t.captureService = "" then
        if t.typ = "pod" then
          match ts.pod t.name with
          | some tcached => .ok tcached
          | none => .error .nonExisting
        else
          match ts.onNode t.nodename t.pfx t.name with
          | some tcached => .ok tcached
          | none => .error .nonExisting
      else .ok t
    match looked with
    | .error e => .error e
    | .ok t =>
      if containsAnyUnsafe t.captureService then .error .invalidRouting
      else .ok t

/-! ## Graceful websocket close: the wait in `Close`

`ReadingClientWebsocket.Close` ends with
`select { case <-time.After(10 * time.Second): ...; case <-ws.closed: }`.
We model the wait as a function of the peer behaviour, abstracted as the
time (in seconds) at which the `closed` channel fires (`none` when it
never fires): the `select` resumes at whichever of the two events comes
first, and on the timeout branch force-closes the transport
(`ws.Conn.Close()`) and fires the completion signal itself
(`close(ws.closed)`).  On a tie Go picks a ready case at random; this
model resolves the tie towards the signal, which only strengthens the
timeout claims proved below. -/

def grace : Nat := 10

structure CloseResult where
  returnTime : Nat
  forcedTransportClose : Bool
  signalFiredByClose : Bool
deriving DecidableEq, Repr

def closeWait (signalAt : Option Nat) : CloseResult :=
  match signalAt with
  | some ts => if ts ≤ grace then ⟨ts, false, false⟩ else ⟨grace, true, true⟩
  | none => ⟨grace, true, true⟩

/-! ## Graceful websocket close: interleaving of `Read` and `Close`

An explicit small-step transition system over the shared state of
`ReadingClientWebsocket`, with one process running `Close` and one
running the close-error branch of `Read`.  Each label is one atomic
statement of the Go code (mutex operations are their own labels; the
mutex serializes the `Closing` updates exactly as in the source).
`closedCount` counts executions of `close(ws.closed)`; a count of 2 is
Go's "close of closed channel" panic. -/

inductive ClPc where
  | start      -- about to execute ws.m.Lock()
  | locked     -- holding the mutex, about to test/set Closing
  | marked     -- about to release the mutex
  | selecting  -- blocked in the select
  | forcing    -- timeout branch: about to Conn.Close(); close(ws.closed)
  | done
deriving DecidableEq, Repr

inductive RdPc where
  | idle       -- blocked in ws.Conn.ReadMessage()
  | gotClose   -- ReadMessage returned a *websocket.CloseError
  | locked     -- holding the mutex, about to test/set Closing
  | marked     -- about to execute ws.Conn.Close()
  | connDone   -- about to execute close(ws.closed)
  | chanDone   -- about to release the mutex (via defer) and return
  | done
deriving DecidableEq, Repr

structure WsState where
  closing : Bool
  connClosed : Bool
  closedCount : Nat
  timerFired : Bool
  lockOwner : Option Bool  -- some true: Close holds the mutex; some false: Read
  cpc : ClPc
  rpc : RdPc
deriving DecidableEq, Repr

inductive WsLab where
  | cLock | cMark | cUnlock | cSelSignal | cSelTimeout | cForce
  | timer
  | recvClose | rLock | rMark | rConn | rChan | rUnlock
deriving DecidableEq, Repr

/-- One interleaving step.  `none`: the label is not enabled in `s`. -/
def wsStep (s : WsState) (l : WsLab) : Option WsState :=
  match l with
  | .cLock =>
    if s.cpc = .start ∧ s.lockOwner = none then
      some { s with lockOwner := some true, cpc := .locked } else none
  | .cMark =>
    -- if !ws.Closing { ws.Closing = true; ws.Conn.WriteMessage(close, "ciao") }
    if s.cpc = .locked then some { s with closing := true, cpc := .marked } else none
  | .cUnlock =>
    if s.cpc = .marked then some { s with lockOwner := none, cpc := .selecting } else none
  | .cSelSignal =>
    -- case <-ws.closed (ready once the channel has been closed)
    if s.cpc = .selecting ∧ 1 ≤ s.closedCount then some { s with cpc := .done } else none
  | .cSelTimeout =>
    -- case <-time.After(10 * time.Second)
    if s.cpc = .selecting ∧ s.timerFired then some { s with cpc := .forcing } else none
  | .cForce =>
    -- ws.Conn.Close(); close(ws.closed)
    if s.cpc = .forcing then
      some { s with connClosed := true, closedCount := s.closedCount + 1, cpc := .done }
    else none
  | .timer =>
    -- the grace timer elapses while Close is waiting
    if s.cpc = .selecting ∧ ¬s.timerFired then some { s with timerFired := true } else none
  | .recvClose =>
    -- ReadMessage yields the peer's close control frame (only possible
    -- while the transport is still open)
    if s.rpc = .idle ∧ ¬s.connClosed then some { s with rpc := .gotClose } else none
  | .rLock =>
    if s.rpc = .gotClose ∧ s.lockOwner = none then
      some { s with lockOwner := some false, rpc := .locked } else none
  | .rMark =>
    -- if !ws.Closing { ws.Closing = true; WriteMessage(close, "ciao") }
    if s.rpc = .locked then some { s with closing := true, rpc := .marked } else none
  | .rConn =>
    -- ws.Conn.Close()
    if s.rpc = .marked then some { s with connClosed := true, rpc := .connDone } else none
  | .rChan =>
    -- close(ws.closed)
    if s.rpc = .connDone then
      some { s with closedCount := s.closedCount + 1, rpc := .chanDone } else none
  | .rUnlock =>
    if s.rpc = .chanDone then some { s with lockOwner := none, rpc := .done } else none

/-- Session start: `Close` has been invoked, the relay's `Read` is blocked
on the websocket, nothing is closed yet. -/
def wsInit : WsState :=
  ⟨false, false, 0, false, none, .start, .idle⟩

def runWs : WsState → List WsLab → Option WsState
  | s, [] => some s
  | s, l :: ls =>
    match wsStep s l with
    | some s' => runWs s' ls
    | none => none

/-- Reachability from the session start under arbitrary interleaving. -/
def WsReachable (s : WsState) : Prop :=
  ∃ tr, runWs wsInit tr = some s

/-! ## The pcapng stream editor

Comments travel on the wire as byte strings; the Go code manipulates them
as Go strings, which are byte strings as well.  We therefore keep comment
processing on `List Nat` and convert the (ASCII) marker and YAML text with
`strBytes`. -/

/-- The bytes of an ASCII string (Go strings are their UTF-8 bytes; every
string the editor injects is ASCII). -/
def strBytes (s : String) : List Nat :=
  s.data.map Char.toNat

/-- `targetmarker`: the magic signature of a capture target YAML document. -/
def targetmarker : String := "---\n# capture target information\n"

def targetmarkerBytes : List Nat := strBytes targetmarker

/-- The `markerstart` regular expression
`(?s)(^|\n)---\n# capture target information\n` as a leftmost-first
search, returning the match's byte interval `[start0, start1)`:
at position 0 the `^` alternative matches the bare marker, at a `\n` the
matched text includes that newline.  `i` is the absolute position of the
suffix `s` inside the searched string. -/
def markerstartFind : Nat → List Nat → Option (Nat × Nat)
  | i, [] =>
    if i = 0 ∧ targetmarkerBytes = [] then some (0, 0) else none
  | i, b :: rest =>
    if i = 0 ∧ targetmarkerBytes.isPrefixOf (b :: rest) then
      some (0, targetmarkerBytes.length)
    else if b = 10 ∧ targetmarkerBytes.isPrefixOf rest then
      some (i, i + 1 + targetmarkerBytes.length)
    else markerstartFind (i + 1) rest

/-- The `markerend` regular expression `(?s)\n---($|\n)` as a
leftmost search; only the match's start position is used by the editor. -/
def markerendFind : Nat → List Nat → Option Nat
  | _, [] => none
  | i, b :: rest =>
    if b = 10 ∧ [45, 45, 45].isPrefixOf rest ∧
        (rest.length = 3 ∨ rest.get? 3 = some 10) then
      some i
    else markerendFind (i + 1) rest

/-- The comment-editing block of `processSHB`: locate a previous capture
target YAML document in the extracted comment and cut it out.  Note the
source really reassembles the comment as
`comment[:start[0]] + comment[start[0]+end[0]:]`, with `end[0]` an index
into `comment[start[1]:]`. -/
def editComment (comment : List Nat) : List Nat :=
  match markerstartFind 0 comment with
  | none => comment
  | some (s0, s1) =>
    let s0 := if comment.get? s0 = some 10 then s0 + 1 else s0
    match markerendFind 0 (comment.drop s1) with
    | some e0 => comment.take s0 ++ comment.drop (s0 + e0)
    | none => comment.take s0

/-- `yaml.Marshal` of a `ContainerInfo`, modelled for plain-safe scalar
values (yaml.v3 renders an empty string as `""`, a plain-safe string
verbatim, uses 4-space indentation, and omits the `omitempty` fields
`cluster`, `capture-filter` and `no-promiscuous-mode` when zero). -/
def yamlScalar (s : String) : String :=
  if s = "" then "\"\"" else s

def yamlContainerInfo (name typ node : String) (cluster : Option String)
    (filter : String) (noProm : Bool) : String :=
  "container-name: " ++ yamlScalar name ++ "\n" ++
  "container-type: " ++ yamlScalar typ ++ "\n" ++
  "node-name: " ++ yamlScalar node ++ "\n" ++
  (match cluster with
   | some uid => "cluster:\n    uid: " ++ yamlScalar uid ++ "\n"
   | none => "") ++
  (if filter ≠ "" then "capture-filter: " ++ yamlScalar filter ++ "\n" else "") ++
  (if noProm then "no-promiscuous-mode: true\n" else "")

/-- `StreamEditor`: the state of the pcapng stream editor.  The sink is
kept outside the state: `process` returns the bytes handed to it.  In Go
`Endian` is a nil interface until `shbLenEndianness` sets it; it is only
ever read afterwards, so a default of `big` is safe. -/
structure StreamEditor where
  endian : Endian
  passThrough : Bool
  shb : List Nat
  shbLen : Nat
  container : Target
  captureFilter : String
  noProm : Bool
deriving DecidableEq, Repr

def emptyTarget : Target :=
  ⟨"", "", "", "", none, "", 0⟩

/-- `NewStreamEditor` (the sink is handled by the caller of `write`).  A
nil container is replaced by an empty `api.Target`. -/
def newStreamEditor (container : Option Target) (captureFilter : String)
    (noProm : Bool) : StreamEditor :=
  { endian := .big, passThrough := false, shb := [], shbLen := 0,
    container := container.getD emptyTarget,
    captureFilter := captureFilter, noProm := noProm }

/-- The serialized metadata for the editor's target. -/
def StreamEditor.yamlBytes (pe : StreamEditor) : List Nat :=
  strBytes (yamlContainerInfo pe.container.name pe.container.typ
    pe.container.nodename pe.container.cluster pe.captureFilter pe.noProm)

/-- `shbLenEndianness`: detect block-type magic, endianness and declared
block length from the first 12 buffered octets.  Returns `false` on an
invalid block-type magic.  Any byte-order magic other than the big-endian
one selects little-endian. -/
def StreamEditor.shbLenEndianness (pe : StreamEditor) : Bool × StreamEditor :=
  if pe.shb.take 4 ≠ [0x0a, 0x0d, 0x0d, 0x0a] then (false, pe)
  else
    let e := if (pe.shb.drop 8).take 4 = [0x1a, 0x2b, 0x3c, 0x4d] then
      Endian.big else Endian.little
    (true, { pe with endian := e, shbLen := get32 e (pe.shb.drop 4) })

/-- The option-parsing loop of `processSHB`
(`for offset < pe.shbLen-4 { opt, skip := NewOption(...); ... }`).
`offset` and the additions are 32-bit in Go, hence the `% 2^32`.  The
first comment-coded option is extracted instead of retained.  `none`
models a Go panic inside `NewOption` (and, at fuel exhaustion, a
non-terminating scan, which in Go always ends in such a panic because the
buffer is finite).  The fuel passed by `processSHB` strictly exceeds the
iteration count of every terminating scan. -/
def parseLoop : Nat → List Nat → Endian → Nat → Nat → List PcapOption →
    Option PcapOption → Option (List PcapOption × Option PcapOption)
  | 0, _, _, _, _, _, _ => none
  | fuel + 1, shb, e, limit, offset, options, firstComment =>
    if offset < limit then
      match newOption (shb.drop offset) e with
      | none => none
      | some (opt?, skip) =>
        let offset := (offset + skip) % 4294967296
        match opt? with
        | none => some (options, firstComment)
        | some opt =>
          if opt.code = OptComment ∧ firstComment = none then
            parseLoop fuel shb e limit offset options (some opt)
          else
            parseLoop fuel shb e limit offset (options ++ [opt]) firstComment
    else some (options, firstComment)

/-- `Option.Bytes` applied to a whole option list (the re-encoding loop of
`processSHB`); `none` when encoding any option panics. -/
def encodeOpts (e : Endian) : List PcapOption → Option (List Nat)
  | [] => some []
  | o :: rest =>
    match o.bytes e, encodeOpts e rest with
    | some b, some bs => some (b ++ bs)
    | _, _ => none

/-- The fresh comment text of `processSHB`: cut any previous capture
target YAML out of the extracted comment with `editComment` (an absent
comment starts from empty text), ensure a trailing newline when the
remaining text is non-empty, and append the start marker followed by the
serialized metadata. -/
def StreamEditor.newCommentValue (pe : StreamEditor)
    (firstComment : Option PcapOption) : List Nat :=
  let comment :=
    match firstComment with
    | some fc => editComment fc.value
    | none => []
  let comment :=
    if comment ≠ [] ∧ comment.getLast? ≠ some 10 then comment ++ [10] else comment
  comment ++ targetmarkerBytes ++ pe.yamlBytes

/-- The block re-emission of `processSHB`, given the re-encoded options
(`none` models the Go panic inside `Option.Bytes`): recompute the total
block length `4+4+4+2+2+8+len(options)+4`, emit block type, both length
fields, byte-order magic, the major/minor version read back from the
buffered block, an all-ones ("unknown") section length and the options,
append the overspill beyond the original declared length, and enter
pass-through. -/
def StreamEditor.emitSHB (pe : StreamEditor) :
    Option (List Nat) → Option (List Nat × StreamEditor)
  | none => none
  | some shbOpts =>
    let e := pe.endian
    let major := get16 e (pe.shb.drop 12)
    let minor := get16 e (pe.shb.drop 14)
    let shbLen := 4 + 4 + 4 + 2 + 2 + 8 + shbOpts.length + 4
    let shb := put32 e 0x0a0d0d0a ++ put32 e shbLen ++ put32 e 0x1a2b3c4d ++
      put16 e major ++ put16 e minor ++ put64 e (2 ^ 64 - 1) ++
      shbOpts ++ put32 e shbLen
    some (shb ++ pe.shb.drop pe.shbLen,
      { pe with passThrough := true, shb := [] })

/-- The second half of `processSHB`, after the option-parsing loop has
delivered the retained options and the extracted first comment: build the
fresh comment, re-encode `[newComment, ...otherOptions]` and emit the
rebuilt block. -/
def StreamEditor.rebuildSHB (pe : StreamEditor) (options : List PcapOption)
    (firstComment : Option PcapOption) : Option (List Nat × StreamEditor) :=
  pe.emitSHB (encodeOpts pe.endian
    (⟨OptComment, pe.newCommentValue firstComment⟩ :: options))

/-- The continuation of `processSHB` on the option-parsing loop's result
(`none` propagates a Go panic inside the loop). -/
def StreamEditor.afterParse (pe : StreamEditor) :
    Option (List PcapOption × Option PcapOption) → Option (List Nat × StreamEditor)
  | none => none
  | some (options, firstComment) => pe.rebuildSHB options firstComment

/-- `processSHB`: rewrite the buffered section header block.  Parses the
options at offset 24 (each option consuming its aligned size, until the
trailing-length position `shbLen - 4` computed in 32-bit arithmetic),
extracting the first comment option, then rebuilds and emits the block.
(The Go code also reads the 64-bit section length, only to log it; that
read is dropped here.)  `none` models a Go panic. -/
def StreamEditor.processSHB (pe : StreamEditor) : Option (List Nat × StreamEditor) :=
  pe.afterParse (parseLoop ((pe.shbLen + (4294967296 - 4)) % 4294967296 + 1) pe.shb
    pe.endian ((pe.shbLen + (4294967296 - 4)) % 4294967296) 24 [] none)

/-- `process`: buffer until the SHB length is known and fully present,
fail open on a bad block-type magic, rewrite the SHB exactly once, then
pass everything through. -/
def StreamEditor.process (pe : StreamEditor) (b : List Nat) :
    Option (List Nat × StreamEditor) :=
  if pe.passThrough then some (b, pe)
  else
    let pe := { pe with shb := pe.shb ++ b }
    if pe.shbLen = 0 ∧ 12 ≤ pe.shb.length then
      match pe.shbLenEndianness with
      | (true, pe) =>
        if pe.shbLen ≠ 0 ∧ pe.shbLen ≤ pe.shb.length then pe.processSHB
        else some ([], pe)
      | (false, pe) =>
        some (pe.shb, { pe with passThrough := true, shb := [] })
    else
      if pe.shbLen ≠ 0 ∧ pe.shbLen ≤ pe.shb.length then pe.processSHB
      else some ([], pe)

/-- `Write`: feed bytes through `process`; the sink's verdict on the
emitted bytes is abstracted as `sinkErr`.  The reported count is fixed to
`len(b)` before anything else happens, and is returned both on sink
success and on sink failure.  The result carries (count, sink error
passed back to the caller, next editor state, bytes handed to the sink);
`none` models a Go panic inside `process`. -/
def StreamEditor.write (pe : StreamEditor) (b : List Nat) (sinkErr : Option Unit) :
    Option (Nat × Option Unit × StreamEditor × List Nat) :=
  let n := b.length
  match pe.process b with
  | none => none
  | some (out, pe') => some (n, sinkErr, pe', out)

/-- Occurrences (with overlaps) of a byte pattern inside a byte string. -/
def countSub (pat : List Nat) : List Nat → Nat
  | [] => 0
  | b :: rest => (if pat.isPrefixOf (b :: rest) then 1 else 0) + countSub pat rest

/-- A well-formed section header block over a given option list: block
type magic, total length (24-byte fixed header + encoded options + 4-byte
trailing length), byte-order magic, version 1.0, unknown section length,
the encoded options, and the trailing copy of the total length.  This is
the block layout of §6 of the specification; `encOpts` must be
`encodeOpts e opts`. -/
def mkSHB (e : Endian) (encOpts : List Nat) : List Nat :=
  put32 e 0x0a0d0d0a ++ put32 e (28 + encOpts.length) ++ put32 e 0x1a2b3c4d ++
    put16 e 1 ++ put16 e 0 ++ put64 e (2 ^ 64 - 1) ++ encOpts ++
    put32 e (28 + encOpts.length)

/-- Read back the options of an emitted block, exactly the way
`processSHB` scans its input: using the block's own declared total length,
starting at offset 24, extracting the first comment option. -/
def parseSHBOptions (block : List Nat) (e : Endian) :
    Option (List PcapOption × Option PcapOption) :=
  let shbLen := get32 e (block.drop 4)
  let limit := (shbLen + (4294967296 - 4)) % 4294967296
  parseLoop (limit + 1) block e limit 24 [] none

/-- The comment of the C2 counterexample: free text, then a previous
capture target YAML document, then an end marker introducing a following
document (`XYZ`). -/
def c2comment : List Nat :=
  strBytes ("ABC\n" ++ targetmarker ++ "\n---\nXYZ")

/-- A big-endian section header block whose single option is the comment
`c2comment` (value length 45, padded to 48; total block length 80). -/
def c2block : List Nat :=
  [0x0a, 0x0d, 0x0d, 0x0a] ++ [0, 0, 0, 80] ++ [0x1a, 0x2b, 0x3c, 0x4d] ++
    [0, 1, 0, 0] ++ List.replicate 8 0xff ++
    [0, 1, 0, 45] ++ c2comment ++ [0, 0, 0] ++
    [0, 0, 0, 80]

/-- The capture targets in a list sharing a name under the empty prefix:
exactly the ones `Set` files under the index key `Pod` consults. -/
def podCandidates (ts : List Target) (name : String) : List Target :=
  ts.filter fun t => t.pfx = "" ∧ t.name = name

/-- C5 counterexample targets: two targets named "x", one under prefix
"a", one a pod under the empty prefix. -/
def c5target1 : Target := ⟨"x", "docker", "a", "n1", none, "", 0⟩

def c5target2 : Target := ⟨"x", "pod", "", "n2", none, "", 0⟩

/-- C6 counterexample target: already routed, but to a service identifier
containing a URL-unsafe character. -/
def c6target : Target := ⟨"p", "pod", "", "n", none, "svc/x", 0⟩

/-- The interleaving that closes the completion channel twice: `Close`
initiates the handshake and blocks in its select; the peer's close
acknowledgement reaches `Read`, which acquires the mutex and passes the
`Closing` test; the grace timer elapses, `Close` takes the timeout branch
and force-closes transport and channel; `Read` then closes the channel a
second time. -/
def badTrace : List WsLab :=
  [.cLock, .cMark, .cUnlock, .recvClose, .rLock, .rMark,
   .timer, .cSelTimeout, .cForce, .rConn, .rChan]

/-- The evolution of the index bucket for key (prefix "", name x,
node "") across the `Set` loop, as a recursive function of the target
list: only targets with prefix "" and name x touch the bucket; such a
target with an empty node name resets the bucket to itself alone (the
composite-key write collides with the (prefix, name) key), otherwise it
is appended to the existing bucket or placed at slot 0 of a fresh bucket
of length `cap`. -/
def bucketEvolve (x : String) : Option (List (Option Target)) → List Target →
    Option (List (Option Target))
  | b, [] => b
  | b, t :: rest =>
    bucketEvolve x
      (if t.pfx = "" ∧ t.name = x then
        if t.nodename = "" then some [some t]
        else some (match b with
          | some l => l ++ [some t]
          | none => some t :: List.replicate ((if t.typ ≠ "pod" then 10 else 1) - 1) none)
      else b) rest

/-! ## Generic lemmas about the byte-order helpers -/

theorem length_put16 (e : Endian) (v : Nat) : (put16 e v).length = 2 := by
  cases e <;> rfl

theorem length_put32 (e : Endian) (v : Nat) : (put32 e v).length = 4 := by
  cases e <;> simp [put32, length_put16]

theorem length_put64 (e : Endian) (v : Nat) : (put64 e v).length = 8 := by
  cases e <;> simp [put64, length_put32]

theorem mod_mul_split (v B : Nat) : v / B % B * B + v % B = v % (B * B) := by
  rw [Nat.mod_mul]; ring

theorem get16_put16 (e : Endian) (v : Nat) (tail : List Nat) :
    get16 e (put16 e v ++ tail) = v % 65536 := by
  have h : v / 256 % 256 * 256 + v % 256 = v % 65536 := by
    have := mod_mul_split v 256; norm_num at this; omega
  cases e <;> simp [get16, put16, byteAt] <;> omega

theorem drop_two_put16 (e : Endian) (v : Nat) (tail : List Nat) :
    (put16 e v ++ tail).drop 2 = tail := by
  cases e <;> simp [put16]

theorem get32_put32 (e : Endian) (v : Nat) (tail : List Nat) :
    get32 e (put32 e v ++ tail) = v % 4294967296 := by
  have h : v / 65536 % 65536 * 65536 + v % 65536 = v % 4294967296 := by
    have := mod_mul_split v 65536; norm_num at this; omega
  cases e <;>
    simp [get32, put32, List.append_assoc, get16_put16, drop_two_put16] <;>
    omega

theorem drop_four_put32 (e : Endian) (v : Nat) (tail : List Nat) :
    (put32 e v ++ tail).drop 4 = tail := by
  cases e <;> simp [put32, put16]

/-! ## Lemmas about the pcapng option codec -/

theorem bytes_padded (o : PcapOption) (e : Endian) (h : o.value.length < 65532) :
    o.bytes e = some (put16 e o.code ++ put16 e o.value.length ++ o.value ++
      (if o.value.length % 4 ≠ 0 then List.replicate (4 - o.value.length % 4) 0 else [])) := by
  have hm : o.value.length % 65536 = o.value.length := Nat.mod_eq_of_lt (by omega)
  simp only [PcapOption.bytes, hm]
  rw [if_neg (by omega), List.take_length]

theorem align4_of_mod (n : Nat) : n ≤ align4 n ∧ align4 n % 4 = 0 ∧ align4 n < n + 4 := by
  unfold align4
  split <;> omega

theorem bytes_padded_length (o : PcapOption) (e : Endian) (h : o.value.length < 65532)
    (bs : List Nat) (hbs : o.bytes e = some bs) :
    bs.length = align4 (4 + o.value.length) := by
  rw [bytes_padded o e h] at hbs
  cases hbs
  by_cases h4 : o.value.length % 4 = 0 <;>
    simp [length_put16, align4, h4, Nat.add_mod] <;> omega

/-- Decoding an encoded option from the front of a longer byte string:
the original option comes back, together with a skip of exactly its
aligned encoded size. -/
theorem newOption_bytes (o : PcapOption) (e : Endian) (tail : List Nat)
    (hcode : o.code < 65536) (hlen : o.value.length < 65532)
    (hnz : ¬(o.code = 0 ∧ o.value = [])) (bs : List Nat) (hbs : o.bytes e = some bs) :
    newOption (bs ++ tail) e = some (some o, bs.length) := by
  have hblen := bytes_padded_length o e hlen bs hbs
  rw [bytes_padded o e hlen] at hbs
  injection hbs with hbs
  subst hbs
  have halign := align4_of_mod (4 + o.value.length)
  unfold newOption
  rw [List.append_assoc, List.append_assoc, List.append_assoc]
  rw [get16_put16, drop_two_put16, get16_put16]
  have hc : o.code % 65536 = o.code := Nat.mod_eq_of_lt hcode
  have hv : o.value.length % 65536 = o.value.length := Nat.mod_eq_of_lt (by omega)
  rw [hc, hv]
  have hlen4 : (put16 e o.code ++ (put16 e o.value.length ++ (o.value ++
      ((if o.value.length % 4 ≠ 0 then List.replicate (4 - o.value.length % 4) 0 else []) ++
        tail)))).length = align4 (4 + o.value.length) + tail.length := by
    simp only [List.length_append] at hblen ⊢
    omega
  rw [if_neg (by omega)]
  have hor : o.code ≠ 0 ∨ o.value.length ≠ 0 := by
    rcases Decidable.em (o.code = 0) with h0 | h0
    · right
      intro hl
      exact hnz ⟨h0, List.length_eq_zero.mp hl⟩
    · left; exact h0
  dsimp only [OptEndofOpt]
  rw [if_pos hor, if_neg (by omega)]
  have hdrop : ((put16 e o.code ++ (put16 e o.value.length ++ (o.value ++
      ((if o.value.length % 4 ≠ 0 then List.replicate (4 - o.value.length % 4) 0 else []) ++
        tail)))).drop 4).take o.value.length = o.value := by
    have : (put16 e o.code ++ (put16 e o.value.length ++ (o.value ++
        ((if o.value.length % 4 ≠ 0 then List.replicate (4 - o.value.length % 4) 0 else []) ++
          tail)))).drop 4 = o.value ++
        ((if o.value.length % 4 ≠ 0 then List.replicate (4 - o.value.length % 4) 0 else []) ++
          tail) := by
      cases e <;> simp [put16]
    rw [this, List.take_left]
  rw [hdrop]
  simp only [Option.some.injEq, Prod.mk.injEq, true_and]
  rw [hblen]

theorem bytes_min4 (o : PcapOption) (e : Endian) (b : List Nat)
    (h : o.bytes e = some b) : 4 ≤ b.length := by
  unfold PcapOption.bytes at h
  dsimp only at h
  split at h
  · cases h
  · injection h with h
    subst h
    simp only [List.length_append, length_put16]
    omega

theorem encodeOpts_exists (e : Endian) (opts : List PcapOption)
    (h : ∀ o ∈ opts, o.value.length < 65532) :
    ∃ enc, encodeOpts e opts = some enc := by
  induction opts with
  | nil => exact ⟨[], rfl⟩
  | cons o rest ih =>
    obtain ⟨enc', henc'⟩ := ih fun u hu => h u (List.mem_cons_of_mem _ hu)
    have hb := bytes_padded o e (h o (List.mem_cons_self _ _))
    exact ⟨_, by rw [encodeOpts, hb, henc']⟩

theorem encodeOpts_length_ge (e : Endian) :
    ∀ (opts : List PcapOption) (enc : List Nat),
      encodeOpts e opts = some enc → opts.length ≤ enc.length := by
  intro opts
  induction opts with
  | nil =>
    intro enc h
    simp only [encodeOpts] at h
    injection h with h
    subst h
    simp
  | cons o rest ih =>
    intro enc h
    rw [encodeOpts] at h
    cases hb : o.bytes e with
    | none => rw [hb] at h; cases h
    | some b =>
      cases he : encodeOpts e rest with
      | none => rw [hb, he] at h; cases h
      | some enc' =>
        rw [hb, he] at h
        injection h with h
        subst h
        have h4 := bytes_min4 o e b hb
        have hr := ih enc' he
        simp only [List.length_cons, List.length_append]
        omega

/-- The option-parsing loop consumes an encoded, comment-free option list
in full, appending the decoded options in order, regardless of the
already-extracted comment. -/
theorem parseLoop_encodeOpts :
    ∀ (opts : List PcapOption) (e : Endian) (shb tail enc : List Nat)
      (offset fuel : Nat) (acc : List PcapOption) (fc : Option PcapOption),
      encodeOpts e opts = some enc →
      shb.drop offset = enc ++ tail →
      (∀ o ∈ opts, 0 < o.code ∧ o.code ≠ OptComment ∧ o.code < 65536 ∧
        o.value.length < 65532) →
      offset + enc.length < 4294967296 →
      opts.length < fuel →
      parseLoop fuel shb e (offset + enc.length) offset acc fc =
        some (acc ++ opts, fc) := by
  intro opts
  induction opts with
  | nil =>
    intro e shb tail enc offset fuel acc fc henc hdrop hok hwrap hfuel
    simp only [encodeOpts] at henc
    injection henc with henc
    subst henc
    cases fuel with
    | zero => omega
    | succ f =>
      simp only [parseLoop, List.length_nil, Nat.add_zero, Nat.lt_irrefl,
        if_false, List.append_nil]
  | cons o rest ih =>
    intro e shb tail enc offset fuel acc fc henc hdrop hok hwrap hfuel
    rw [encodeOpts] at henc
    cases hb : o.bytes e with
    | none => rw [hb] at henc; cases henc
    | some b =>
      cases he : encodeOpts e rest with
      | none => rw [hb, he] at henc; cases henc
      | some enc' =>
        rw [hb, he] at henc
        injection henc with henc
        subst henc
        obtain ⟨hcpos, hcne, hclt, hvlt⟩ := hok o (List.mem_cons_self _ _)
        have hrest_ok : ∀ u ∈ rest, 0 < u.code ∧ u.code ≠ OptComment ∧
            u.code < 65536 ∧ u.value.length < 65532 :=
          fun u hu => hok u (List.mem_cons_of_mem _ hu)
        have hb4 := bytes_min4 o e b hb
        have hno : newOption (shb.drop offset) e = some (some o, b.length) := by
          rw [hdrop, List.append_assoc]
          exact newOption_bytes o e (enc' ++ tail) hclt hvlt
            (fun hz => by omega) b hb
        cases fuel with
        | zero => simp at hfuel
        | succ f =>
          have hlt : offset < offset + (b ++ enc').length := by
            simp only [List.length_append]
            omega
          rw [parseLoop, if_pos hlt, hno]
          have hmod : (offset + b.length) % 4294967296 = offset + b.length := by
            apply Nat.mod_eq_of_lt
            simp only [List.length_append] at hwrap
            omega
          simp only [hmod]
          rw [if_neg (fun hcc => hcne hcc.1)]
          have hdrop' : shb.drop (offset + b.length) = enc' ++ tail := by
            have h1 : shb.drop (offset + b.length) = (shb.drop offset).drop b.length :=
              (List.drop_drop b.length offset shb).symm
            rw [h1, hdrop, List.append_assoc, List.drop_left]
          have harith : offset + (b ++ enc').length = offset + b.length + enc'.length := by
            simp only [List.length_append]
            omega
          rw [harith]
          have hwrap' : offset + b.length + enc'.length < 4294967296 := by
            simp only [List.length_append] at hwrap
            omega
          have hfuel' : rest.length < f := by
            simp only [List.length_cons] at hfuel
            omega
          rw [ih e shb tail enc' (offset + b.length) f (acc ++ [o]) fc he hdrop'
            hrest_ok hwrap' hfuel']
          simp

/-! ## Lemmas about the well-formed block builder -/

theorem length_mkSHB (e : Endian) (x : List Nat) :
    (mkSHB e x).length = 28 + x.length := by
  simp only [mkSHB, List.length_append, length_put32, length_put16, length_put64]
  omega

theorem magic_put32 (e : Endian) : put32 e 0x0a0d0d0a = [0x0a, 0x0d, 0x0d, 0x0a] := by
  cases e <;> rfl

theorem take_four_put32 (e : Endian) (v : Nat) (tail : List Nat) :
    (put32 e v ++ tail).take 4 = put32 e v := by
  cases e <;> simp [put32, put16]

theorem drop_eight_put64 (e : Endian) (v : Nat) (tail : List Nat) :
    (put64 e v ++ tail).drop 8 = tail := by
  cases e <;> simp [put64, put32, put16]

theorem bom_detect (e : Endian) :
    (if put32 e 0x1a2b3c4d = [0x1a, 0x2b, 0x3c, 0x4d] then Endian.big
     else Endian.little) = e := by
  cases e <;> rfl

theorem mkSHB_take4 (e : Endian) (x : List Nat) :
    (mkSHB e x).take 4 = [0x0a, 0x0d, 0x0d, 0x0a] := by
  rw [mkSHB]
  simp only [List.append_assoc]
  rw [take_four_put32, magic_put32]

theorem mkSHB_drop4 (e : Endian) (x : List Nat) :
    (mkSHB e x).drop 4 = put32 e (28 + x.length) ++ (put32 e 0x1a2b3c4d ++
      (put16 e 1 ++ (put16 e 0 ++ (put64 e (2 ^ 64 - 1) ++
        (x ++ put32 e (28 + x.length)))))) := by
  rw [mkSHB]
  simp only [List.append_assoc]
  rw [drop_four_put32]

theorem mkSHB_declared (e : Endian) (x : List Nat) :
    get32 e ((mkSHB e x).drop 4) = (28 + x.length) % 4294967296 := by
  rw [mkSHB_drop4, get32_put32]

theorem mkSHB_drop8 (e : Endian) (x : List Nat) :
    (mkSHB e x).drop 8 = put32 e 0x1a2b3c4d ++ (put16 e 1 ++ (put16 e 0 ++
      (put64 e (2 ^ 64 - 1) ++ (x ++ put32 e (28 + x.length))))) := by
  have h : (mkSHB e x).drop 8 = ((mkSHB e x).drop 4).drop 4 := by
    rw [List.drop_drop]
  rw [h, mkSHB_drop4, drop_four_put32]

theorem mkSHB_drop12 (e : Endian) (x : List Nat) :
    (mkSHB e x).drop 12 = put16 e 1 ++ (put16 e 0 ++
      (put64 e (2 ^ 64 - 1) ++ (x ++ put32 e (28 + x.length)))) := by
  have h : (mkSHB e x).drop 12 = ((mkSHB e x).drop 8).drop 4 := by
    rw [List.drop_drop]
  rw [h, mkSHB_drop8, drop_four_put32]

theorem mkSHB_major (e : Endian) (x : List Nat) :
    get16 e ((mkSHB e x).drop 12) = 1 := by
  rw [mkSHB_drop12, get16_put16]

theorem mkSHB_drop14 (e : Endian) (x : List Nat) :
    (mkSHB e x).drop 14 = put16 e 0 ++
      (put64 e (2 ^ 64 - 1) ++ (x ++ put32 e (28 + x.length))) := by
  have h : (mkSHB e x).drop 14 = ((mkSHB e x).drop 12).drop 2 := by
    rw [List.drop_drop]
  rw [h, mkSHB_drop12, drop_two_put16]

theorem mkSHB_minor (e : Endian) (x : List Nat) :
    get16 e ((mkSHB e x).drop 14) = 0 := by
  rw [mkSHB_drop14, get16_put16]

theorem mkSHB_drop24 (e : Endian) (x : List Nat) :
    (mkSHB e x).drop 24 = x ++ put32 e (28 + x.length) := by
  have h : (mkSHB e x).drop 24 = (((mkSHB e x).drop 14).drop 2).drop 8 := by
    rw [List.drop_drop, List.drop_drop]
  rw [h, mkSHB_drop14, drop_two_put16, drop_eight_put64]

theorem mkSHB_trailing (e : Endian) (x : List Nat) :
    get32 e ((mkSHB e x).drop (24 + x.length)) = (28 + x.length) % 4294967296 := by
  have h : (mkSHB e x).drop (24 + x.length) = ((mkSHB e x).drop 24).drop x.length :=
    (List.drop_drop x.length 24 (mkSHB e x)).symm
  rw [h, mkSHB_drop24, List.drop_left]
  rw [← List.append_nil (put32 e (28 + x.length)), get32_put32]

/-- Feeding a whole well-formed block into a fresh editor runs the
buffering, framing detection (which recovers the block's endianness and
declared length) and hands the buffered block to `processSHB`. -/
theorem process_mkSHB (pe : StreamEditor) (e : Endian) (x : List Nat)
    (hpt : pe.passThrough = false) (hshb : pe.shb = []) (hlen0 : pe.shbLen = 0)
    (hx : 28 + x.length < 4294967296) :
    pe.process (mkSHB e x) =
      StreamEditor.processSHB
        { pe with shb := mkSHB e x, endian := e, shbLen := 28 + x.length } := by
  have hmod : (28 + x.length) % 4294967296 = 28 + x.length := Nat.mod_eq_of_lt hx
  unfold StreamEditor.process
  rw [hpt, if_neg Bool.false_ne_true]
  dsimp only
  rw [hshb, List.nil_append, hlen0]
  rw [if_pos ⟨rfl, by rw [length_mkSHB]; omega⟩]
  unfold StreamEditor.shbLenEndianness
  dsimp only
  rw [mkSHB_take4, if_neg (fun h => h rfl)]
  rw [mkSHB_drop8, take_four_put32, bom_detect, mkSHB_declared, hmod]
  dsimp only
  rw [if_pos ⟨by omega, by rw [length_mkSHB]⟩]

/-- `processSHB` on a buffered comment-free block: the first comment slot
is freshly created from the start marker and the serialized metadata, all
original options are re-encoded behind it in order, and the block is
re-emitted with the recomputed total length and no overspill. -/
theorem processSHB_mkSHB (pe : StreamEditor) (e : Endian) (enc : List Nat)
    (opts : List PcapOption) (bc : List Nat)
    (hshb : pe.shb = mkSHB e enc) (hend : pe.endian = e)
    (hlen : pe.shbLen = 28 + enc.length)
    (henc : encodeOpts e opts = some enc)
    (hok : ∀ o ∈ opts, 0 < o.code ∧ o.code ≠ OptComment ∧ o.code < 65536 ∧
      o.value.length < 65532)
    (hwrap : 28 + enc.length < 4294967296)
    (hbc : (⟨OptComment, targetmarkerBytes ++ pe.yamlBytes⟩ : PcapOption).bytes e =
      some bc) :
    pe.processSHB = some (mkSHB e (bc ++ enc),
      { pe with passThrough := true, shb := [] }) := by
  have hlimit : (pe.shbLen + (4294967296 - 4)) % 4294967296 = 24 + enc.length := by
    rw [hlen]; omega
  have hfuel : opts.length < 24 + enc.length + 1 := by
    have := encodeOpts_length_ge e opts enc henc
    omega
  have hparse := parseLoop_encodeOpts opts e (mkSHB e enc)
    (put32 e (28 + enc.length)) enc 24 (24 + enc.length + 1) [] none henc
    (mkSHB_drop24 e enc) hok (by omega) hfuel
  have hnc : pe.newCommentValue none = targetmarkerBytes ++ pe.yamlBytes := by
    unfold StreamEditor.newCommentValue
    dsimp only
    rw [if_neg (by simp), List.nil_append]
  unfold StreamEditor.processSHB
  rw [hlimit, hend, hshb, hparse, List.nil_append]
  rw [StreamEditor.afterParse]
  unfold StreamEditor.rebuildSHB
  rw [hnc, hend]
  rw [encodeOpts, hbc, henc]
  rw [StreamEditor.emitSHB]
  rw [hend, hshb, hlen, mkSHB_major, mkSHB_minor]
  have h28 : 4 + 4 + 4 + 2 + 2 + 8 + (bc ++ enc).length + 4 =
      28 + (bc ++ enc).length := by omega
  rw [h28]
  have hdropnil : (mkSHB e enc).drop (28 + enc.length) = [] := by
    apply List.drop_eq_nil_of_le
    rw [length_mkSHB]
  rw [hdropnil, List.append_nil, mkSHB]

/-- Re-reading an emitted block whose options region is one encoded
comment option followed by a comment-free encoded option list: the scan
extracts the comment and returns the remaining options in order. -/
theorem parseSHBOptions_comment_first (e : Endian) (bc enc : List Nat)
    (c : PcapOption) (opts : List PcapOption)
    (hc : c.code = OptComment) (hclen : c.value.length < 65532)
    (hbc : c.bytes e = some bc)
    (henc : encodeOpts e opts = some enc)
    (hok : ∀ o ∈ opts, 0 < o.code ∧ o.code ≠ OptComment ∧ o.code < 65536 ∧
      o.value.length < 65532)
    (hwrap : 28 + (bc ++ enc).length < 4294967296) :
    parseSHBOptions (mkSHB e (bc ++ enc)) e = some (opts, some c) := by
  have hb4 := bytes_min4 c e bc hbc
  have hdecl : get32 e ((mkSHB e (bc ++ enc)).drop 4) = 28 + (bc ++ enc).length := by
    rw [mkSHB_declared]
    exact Nat.mod_eq_of_lt hwrap
  show parseLoop
      ((get32 e ((mkSHB e (bc ++ enc)).drop 4) + (4294967296 - 4)) % 4294967296 + 1)
      (mkSHB e (bc ++ enc)) e
      ((get32 e ((mkSHB e (bc ++ enc)).drop 4) + (4294967296 - 4)) % 4294967296)
      24 [] none = some (opts, some c)
  rw [hdecl]
  have hlimit : (28 + (bc ++ enc).length + (4294967296 - 4)) % 4294967296 =
      24 + (bc ++ enc).length := by omega
  rw [hlimit]
  have hno : newOption ((mkSHB e (bc ++ enc)).drop 24) e = some (some c, bc.length) := by
    rw [mkSHB_drop24, List.append_assoc]
    refine newOption_bytes c e (enc ++ put32 e (28 + (bc ++ enc).length)) ?_ hclen
      (fun hz => by rw [hc] at hz; exact absurd hz.1 (by simp [OptComment])) bc hbc
    rw [hc]
    simp [OptComment]
  have hlt : 24 < 24 + (bc ++ enc).length := by
    simp only [List.length_append]
    omega
  rw [parseLoop, if_pos hlt, hno]
  have hmod : (24 + bc.length) % 4294967296 = 24 + bc.length := by
    apply Nat.mod_eq_of_lt
    simp only [List.length_append] at hwrap
    omega
  simp only [hmod]
  rw [if_pos ⟨hc, trivial⟩]
  have hdrop : (mkSHB e (bc ++ enc)).drop (24 + bc.length) =
      enc ++ put32 e (28 + (bc ++ enc).length) := by
    have h1 : (mkSHB e (bc ++ enc)).drop (24 + bc.length) =
        ((mkSHB e (bc ++ enc)).drop 24).drop bc.length :=
      (List.drop_drop bc.length 24 _).symm
    rw [h1, mkSHB_drop24, List.append_assoc, List.drop_left]
  have hfuel : opts.length < 24 + (bc ++ enc).length := by
    have := encodeOpts_length_ge e opts enc henc
    simp only [List.length_append]
    omega
  have harith : 24 + (bc ++ enc).length = 24 + bc.length + enc.length := by
    simp only [List.length_append]
    omega
  rw [harith]
  have hwrap' : 24 + bc.length + enc.length < 4294967296 := by
    simp only [List.length_append] at hwrap
    omega
  rw [parseLoop_encodeOpts opts e (mkSHB e (bc ++ enc))
    (put32 e (28 + (bc ++ enc).length)) enc (24 + bc.length)
    (24 + bc.length + enc.length) [] (some c) henc hdrop hok hwrap'
    (by omega)]
  rw [List.nil_append]

/-! ## Claim C4: option codec roundtrip -/

/-- C4, counterexample: the claim quantifies over every `Option`, but for
the option with code 0 and empty value, encoding yields the
end-of-options sentinel `[0,0,0,0]`, and decoding that yields no option
at all rather than the original (code, value). -/
theorem c4_counterexample :
    (⟨0, []⟩ : PcapOption).bytes .big = some [0, 0, 0, 0] ∧
    (newOption [0, 0, 0, 0] .big).map Prod.fst = some none := by
  decide

/-- C4, amended: for every recognized byte order and every option that is
not the end-of-options sentinel and whose value is shorter than 65532
bytes (beyond which the 16-bit length arithmetic of `Option.Bytes` wraps),
encoding then decoding with `NewOption` yields the original code and
value, and the encoded length is `4 + len(value)` rounded up to the next
multiple of 4; decoding an end-of-options sentinel yields no option and a
skip of exactly 4. -/
theorem c4_roundtrip :
    (∀ (e : Endian) (o : PcapOption), o.code < 65536 → o.value.length < 65532 →
      ¬(o.code = 0 ∧ o.value = []) →
      ∃ bs, o.bytes e = some bs ∧ bs.length = align4 (4 + o.value.length) ∧
        newOption bs e = some (some o, bs.length)) ∧
    ∀ e : Endian, newOption [0, 0, 0, 0] e = some (none, 4) := by
  constructor
  · intro e o hc hl hnz
    obtain ⟨bs, hbs⟩ : ∃ bs, o.bytes e = some bs := by
      rw [bytes_padded o e hl]
      exact ⟨_, rfl⟩
    refine ⟨bs, hbs, bytes_padded_length o e hl bs hbs, ?_⟩
    have h := newOption_bytes o e [] hc hl hnz bs hbs
    simpa using h
  · intro e
    cases e <;> decide

/-- C4, witness: the roundtrip at the repository's own test vector,
option (42, "Go") in big-endian byte order. -/
theorem c4_witness :
    ∃ bs, (⟨42, [71, 111]⟩ : PcapOption).bytes .big = some bs ∧
      bs.length = align4 (4 + 2) ∧
      newOption bs .big = some (some ⟨42, [71, 111]⟩, bs.length) :=
  c4_roundtrip.1 .big ⟨42, [71, 111]⟩ (by decide) (by decide) (by decide)

/-! ## Claim C7: Close always returns within the grace bound -/

/-- C7: for every peer behaviour — the completion signal firing at any
time or never — `Close()`'s wait returns within the fixed grace bound of
10 time units, returning at the earlier of the signal and the timer; and
when the signal never arrives it force-closes the transport and fires the
completion signal itself. -/
theorem c7_close_bounded :
    ∀ signalAt : Option Nat,
      (closeWait signalAt).returnTime ≤ grace ∧
      (closeWait signalAt).returnTime = min (signalAt.getD grace) grace ∧
      (signalAt = none →
        (closeWait signalAt).forcedTransportClose = true ∧
        (closeWait signalAt).signalFiredByClose = true) := by
  intro s
  match s with
  | none => exact ⟨le_refl _, by simp [closeWait], fun _ => ⟨rfl, rfl⟩⟩
  | some ts =>
    refine ⟨?_, ?_, fun h => by cases h⟩
    · unfold closeWait
      by_cases h : ts ≤ grace <;> simp [h]
    · unfold closeWait
      by_cases h : ts ≤ grace <;> simp [h, min_def]

/-- C7, witness: a peer that never acknowledges the close. -/
theorem c7_witness :
    (closeWait none).forcedTransportClose = true ∧
    (closeWait none).signalFiredByClose = true :=
  (c7_close_bounded none).2.2 rfl

/-! ## Claim C8: the one-shot completion signal -/

/-- C8: the claim fails on the code — under the interleaving `badTrace`
(the peer's close acknowledgement races the grace timer), the session
reaches a state in which `close(ws.closed)` has executed twice, which in
Go is a "close of closed channel" panic; the completion signal is not
one-shot for every interleaving of `Close()` and `Read()`. -/
theorem c8_double_close :
    ∃ s, WsReachable s ∧ 2 ≤ s.closedCount := by
  refine ⟨⟨true, true, 2, true, some false, .done, .chanDone⟩, ⟨badTrace, ?_⟩, by norm_num⟩
  decide

/-! ## Claim C9: Clear leaves the lookup indices unchanged -/

/-- C9: `Clear` empties only the target list: after `Set` then `Clear`
the cache reports empty, yet `Pod` and `OnNode` answer exactly as before
the `Clear`, from the untouched index. -/
theorem c9_clear_keeps_index :
    ∀ (ts : List Target) (name nodename pfx : String),
      ((setCache ts).clear).isEmpty = true ∧
      ((setCache ts).clear).pod name = (setCache ts).pod name ∧
      ((setCache ts).clear).onNode nodename pfx name =
        (setCache ts).onNode nodename pfx name := by
  intro ts name nodename pfx
  exact ⟨rfl, rfl, rfl⟩

/-! ## Claim C10: Write always reports the full input length -/

/-- C10: whenever `Write` returns, the reported count is the length of
the input byte slice — both while the editor is still buffering (and
emits nothing) and when the sink reports an error. -/
theorem c10_write_full_length :
    ∀ (pe : StreamEditor) (b : List Nat) (sinkErr : Option Unit) r,
      pe.write b sinkErr = some r → r.1 = b.length := by
  intro pe b sinkErr r h
  dsimp only [StreamEditor.write] at h
  cases hp : pe.process b with
  | none => rw [hp] at h; cases h
  | some p =>
    rw [hp] at h
    cases h
    rfl

/-- C10, witness: a 3-byte write that is entirely buffered (nothing
reaches the sink) still reports a count of 3. -/
theorem c10_witness :
    ((newStreamEditor none "" false).write [1, 2, 3] none).map Prod.fst = some 3 := by
  cases hw : (newStreamEditor none "" false).write [1, 2, 3] none with
  | none => exact absurd hw (by decide)
  | some r =>
    have h3 := c10_write_full_length (newStreamEditor none "" false) [1, 2, 3] none r hw
    simp [h3]

/-! ## Claim C3: fail-open on invalid block-type magic -/

/-- C3: once at least 12 bytes are buffered and the first four are not
the block-type magic, the editor emits everything buffered so far
unmodified and enters pass-through for good: every later `process` is the
identity on the input and every later `Write` hands the input to the sink
byte-for-byte and succeeds — no malformed stream is blocked. -/
theorem c3_fail_open :
    (∀ (pe : StreamEditor) (b : List Nat),
      pe.passThrough = false → pe.shbLen = 0 → pe.shb.length < 12 →
      12 ≤ pe.shb.length + b.length →
      (pe.shb ++ b).take 4 ≠ [0x0a, 0x0d, 0x0d, 0x0a] →
      pe.process b =
        some (pe.shb ++ b, { pe with passThrough := true, shb := [] })) ∧
    (∀ (pe : StreamEditor) (c : List Nat) (sinkErr : Option Unit),
      pe.passThrough = true →
      pe.process c = some (c, pe) ∧
      pe.write c sinkErr = some (c.length, sinkErr, pe, c)) := by
  constructor
  · intro pe b hpt hlen hb12 h12 hmagic
    unfold StreamEditor.process
    rw [if_neg (by simp [hpt])]
    rw [if_pos (by constructor <;> simp [hlen, *])]
    unfold StreamEditor.shbLenEndianness
    rw [if_pos (by simpa using hmagic)]
  · intro pe c sinkErr hpt
    have hp : pe.process c = some (c, pe) := by
      unfold StreamEditor.process
      rw [if_pos (by simp [hpt])]
    refine ⟨hp, ?_⟩
    unfold StreamEditor.write
    rw [hp]

/-- C3, witness: 12 bytes of zeros are flushed unmodified and the editor
is pass-through from then on. -/
theorem c3_witness :
    (newStreamEditor none "" false).process (List.replicate 12 0) =
      some (List.replicate 12 0,
        { newStreamEditor none "" false with passThrough := true, shb := [] }) ∧
    ({ newStreamEditor none "" false with
        passThrough := true }).process [7, 7] =
      some ([7, 7], { newStreamEditor none "" false with passThrough := true }) := by
  constructor
  · have h := c3_fail_open.1 (newStreamEditor none "" false) (List.replicate 12 0)
      rfl rfl (by decide) (by decide) (by decide)
    simpa using h
  · exact (c3_fail_open.2 ({ newStreamEditor none "" false with
      passThrough := true }) [7, 7] none rfl).1

/-! ## Claim C6: CompleteTarget -/

/-- C6, counterexample: the claim says a descriptor already carrying a
non-empty capture-service routing field is returned as-is; but the
routing check applies to that path as well, so a pre-routed descriptor
whose service identifier contains `/` is rejected instead. -/
theorem c6_counterexample :
    c6target.captureService ≠ "" ∧
    CompleteTarget (some c6target) (setCache []) = .error .invalidRouting := by
  constructor
  · decide
  · rfl

/-- C6, amended: `CompleteTarget` fails with the missing-target error on
a nil descriptor; a descriptor already carrying routing is returned
as-is when its service identifier is free of `/?%` and rejected with the
invalid-routing error otherwise; an unrouted descriptor is resolved via
`Pod` (pod type) or `OnNode` (other types), failing with the not-found
error on absence, and on success the cached entry is returned as a
shallow copy, subject to the same routing check. -/
theorem c6_complete_target :
    (∀ ts : TargetCache, CompleteTarget none ts = .error .noTarget) ∧
    (∀ (t : Target) (ts : TargetCache), t.captureService ≠ "" →
      CompleteTarget (some t) ts =
        if containsAnyUnsafe t.captureService then .error .invalidRouting
        else .ok t) ∧
    (∀ (t : Target) (ts : TargetCache), t.captureService = "" → t.typ = "pod" →
      CompleteTarget (some t) ts =
        match ts.pod t.name with
        | none => .error .nonExisting
        | some tcached =>
          if containsAnyUnsafe tcached.captureService then .error .invalidRouting
          else .ok tcached) ∧
    (∀ (t : Target) (ts : TargetCache), t.captureService = "" → t.typ ≠ "pod" →
      CompleteTarget (some t) ts =
        match ts.onNode t.nodename t.pfx t.name with
        | none => .error .nonExisting
        | some tcached =>
          if containsAnyUnsafe tcached.captureService then .error .invalidRouting
          else .ok tcached) := by
  refine ⟨fun ts => rfl, ?_, ?_, ?_⟩
  · intro t ts hcs
    unfold CompleteTarget
    dsimp only
    rw [if_neg hcs]
  · intro t ts hcs htyp
    unfold CompleteTarget
    dsimp only
    rw [if_pos hcs, if_pos htyp]
    cases ts.pod t.name <;> rfl
  · intro t ts hcs htyp
    unfold CompleteTarget
    dsimp only
    rw [if_pos hcs, if_neg htyp]
    cases ts.onNode t.nodename t.pfx t.name <;> rfl

/-- C6, witness: the missing-target error on a nil descriptor, and a
successful pod resolution returning the cached entry. -/
theorem c6_witness :
    CompleteTarget none (setCache []) = .error .noTarget ∧
    CompleteTarget (some { c5target2 with captureService := "" }) (setCache [c5target2]) =
      .ok c5target2 := by
  refine ⟨c6_complete_target.1 (setCache []), ?_⟩
  have h := c6_complete_target.2.2.1 { c5target2 with captureService := "" }
    (setCache [c5target2]) rfl rfl
  rw [h]
  rfl

/-! ## Claim C5, counterexample -/

/-- C5, counterexample: two cached targets share the name "x", yet
`Pod("x")` reports found — the lookup only consults the bucket for the
empty prefix, so the same name under the prefix "a" does not count as an
ambiguity. -/
theorem c5_counterexample :
    (([c5target1, c5target2].filter fun t => t.name = "x").length = 2) ∧
    (setCache [c5target1, c5target2]).pod "x" = some c5target2 := by
  constructor
  · decide
  · rfl

/-! ## Claim C5, amended: lemmas about the Set fold -/

theorem idxFind_idxSet (idx : Index) (k k' : Targetkey) (v : List (Option Target)) :
    idxFind (idxSet idx k v) k' = if k = k' then some v else idxFind idx k' := by
  induction idx with
  | nil => by_cases h : k = k' <;> simp [idxSet, idxFind, h]
  | cons p rest ih =>
    obtain ⟨k0, v0⟩ := p
    by_cases h0 : k0 = k
    · subst h0
      by_cases h : k0 = k' <;> simp [idxSet, idxFind, h]
    · by_cases h : k0 = k'
      · subst h
        have hk : ¬k = k0 := fun hh => h0 hh.symm
        simp [idxSet, idxFind, h0, hk]
      · simp [idxSet, idxFind, h0, h, ih]

theorem podCandidates_cons (t : Target) (rest : List Target) (x : String) :
    podCandidates (t :: rest) x =
      if t.pfx = "" ∧ t.name = x then t :: podCandidates rest x
      else podCandidates rest x := by
  by_cases hc : t.pfx = "" ∧ t.name = x <;>
    simp [podCandidates, List.filter_cons, hc]

theorem setStep_bucket (idx : Index) (t : Target) (x : String) :
    idxFind (setStep idx t) ⟨"", x, ""⟩ =
      (if t.pfx = "" ∧ t.name = x then
        if t.nodename = "" then some [some t]
        else some (match idxFind idx ⟨"", x, ""⟩ with
          | some l => l ++ [some t]
          | none => some t :: List.replicate ((if t.typ ≠ "pod" then 10 else 1) - 1) none)
      else idxFind idx ⟨"", x, ""⟩) := by
  unfold setStep
  by_cases hc : t.pfx = "" ∧ t.name = x
  · rw [if_pos hc]
    obtain ⟨h1, h2⟩ := hc
    simp only [h1, h2]
    by_cases hn : t.nodename = ""
    · simp only [hn]
      cases hfind : idxFind idx ⟨"", x, ""⟩ <;>
        simp [idxFind_idxSet, hfind]
    · have hkey : (⟨"", x, t.nodename⟩ : Targetkey) ≠ ⟨"", x, ""⟩ := by
        simp [Targetkey.mk.injEq, hn]
      cases hfind : idxFind idx ⟨"", x, ""⟩ <;>
        simp [idxFind_idxSet, hfind, hn, hkey]
  · rw [if_neg hc]
    have hne : ∀ nn : String, (⟨t.pfx, t.name, nn⟩ : Targetkey) ≠ ⟨"", x, ""⟩ := by
      intro nn hk
      rw [Targetkey.mk.injEq] at hk
      exact hc ⟨hk.1, hk.2.1⟩
    cases hfind : idxFind idx ⟨t.pfx, t.name, ""⟩ <;>
      simp [idxFind_idxSet, hfind, hne _]

theorem foldl_setStep_bucket (ts : List Target) (x : String) :
    ∀ acc : Index, idxFind (ts.foldl setStep acc) ⟨"", x, ""⟩ =
      bucketEvolve x (idxFind acc ⟨"", x, ""⟩) ts := by
  induction ts with
  | nil => intro acc; rfl
  | cons t rest ih =>
    intro acc
    rw [List.foldl_cons, ih, setStep_bucket]
    rfl

theorem bucketEvolve_nocand (x : String) :
    ∀ (ts : List Target) (b : Option (List (Option Target))),
      (∀ t ∈ ts, ¬(t.pfx = "" ∧ t.name = x)) → bucketEvolve x b ts = b := by
  intro ts
  induction ts with
  | nil => intro b _; rfl
  | cons t rest ih =>
    intro b h
    have ht := h t (List.mem_cons_self t rest)
    unfold bucketEvolve
    rw [if_neg ht]
    exact ih b fun u hu => h u (List.mem_cons_of_mem t hu)

theorem podCandidates_nil_nocand (x : String) (ts : List Target)
    (h : podCandidates ts x = []) : ∀ t ∈ ts, ¬(t.pfx = "" ∧ t.name = x) := by
  intro t ht hct
  have : t ∈ podCandidates ts x := by
    rw [podCandidates, List.mem_filter]
    exact ⟨ht, by simpa using hct⟩
  rw [h] at this
  cases this

theorem bucketEvolve_single (x : String) (t0 : Target) :
    ∀ ts : List Target, podCandidates ts x = [t0] →
      bucketEvolve x none ts =
        (if t0.nodename = "" then some [some t0]
         else some (some t0 ::
           List.replicate ((if t0.typ ≠ "pod" then 10 else 1) - 1) none)) := by
  intro ts
  induction ts with
  | nil => intro h; simp [podCandidates] at h
  | cons t rest ih =>
    intro h
    rw [podCandidates_cons] at h
    by_cases hc : t.pfx = "" ∧ t.name = x
    · rw [if_pos hc] at h
      injection h with h1 h2
      subst h1
      have hrest := podCandidates_nil_nocand x rest h2
      unfold bucketEvolve
      rw [if_pos hc]
      by_cases hn : t.nodename = ""
      · rw [if_pos hn, bucketEvolve_nocand x rest _ hrest]
      · rw [if_neg hn, bucketEvolve_nocand x rest _ hrest]
    · rw [if_neg hc] at h
      unfold bucketEvolve
      rw [if_neg hc]
      exact ih h

theorem bucketEvolve_grow (x : String) :
    ∀ (ts : List Target) (l : List (Option Target)),
      (∀ t ∈ podCandidates ts x, t.nodename ≠ "") →
      ∃ l', bucketEvolve x (some l) ts = some l' ∧
        l'.length = l.length + (podCandidates ts x).length := by
  intro ts
  induction ts with
  | nil => intro l _; exact ⟨l, rfl, by simp [podCandidates]⟩
  | cons t rest ih =>
    intro l h
    rw [podCandidates_cons] at h ⊢
    by_cases hc : t.pfx = "" ∧ t.name = x
    · rw [if_pos hc] at h ⊢
      have hn : t.nodename ≠ "" := h t (List.mem_cons_self _ _)
      have hrest : ∀ u ∈ podCandidates rest x, u.nodename ≠ "" :=
        fun u hu => h u (List.mem_cons_of_mem _ hu)
      obtain ⟨l', hl', hlen⟩ := ih (l ++ [some t]) hrest
      refine ⟨l', ?_, ?_⟩
      · unfold bucketEvolve
        rw [if_pos hc, if_neg hn]
        exact hl'
      · simp only [List.length_append, List.length_cons, List.length_nil] at hlen ⊢
        omega
    · rw [if_neg hc] at h ⊢
      obtain ⟨l', hl', hlen⟩ := ih l h
      refine ⟨l', ?_, hlen⟩
      unfold bucketEvolve
      rw [if_neg hc]
      exact hl'

theorem bucketEvolve_two (x : String) :
    ∀ ts : List Target,
      (∀ t ∈ podCandidates ts x, t.nodename ≠ "") →
      2 ≤ (podCandidates ts x).length →
      ∃ l, bucketEvolve x none ts = some l ∧ 2 ≤ l.length := by
  intro ts
  induction ts with
  | nil => intro _ h2; simp [podCandidates] at h2
  | cons t rest ih =>
    intro h h2
    rw [podCandidates_cons] at h h2
    by_cases hc : t.pfx = "" ∧ t.name = x
    · rw [if_pos hc] at h h2
      have hn : t.nodename ≠ "" := h t (List.mem_cons_self _ _)
      have hrest : ∀ u ∈ podCandidates rest x, u.nodename ≠ "" :=
        fun u hu => h u (List.mem_cons_of_mem _ hu)
      have hrest1 : 1 ≤ (podCandidates rest x).length := by
        simp only [List.length_cons] at h2
        omega
      obtain ⟨l', hl', hlen⟩ := bucketEvolve_grow x rest
        (some t :: List.replicate ((if t.typ ≠ "pod" then 10 else 1) - 1) none) hrest
      refine ⟨l', ?_, ?_⟩
      · unfold bucketEvolve
        rw [if_pos hc, if_neg hn]
        exact hl'
      · simp only [List.length_cons] at hlen
        omega
    · rw [if_neg hc] at h h2
      obtain ⟨l, hl, h2l⟩ := ih h h2
      refine ⟨l, ?_, h2l⟩
      unfold bucketEvolve
      rw [if_neg hc]
      exact hl

/-- C5, amended: `Pod(x)` consults only the index bucket keyed by
(prefix "", name x, node ""), so only targets with prefix "" and name x
count as candidates.  With no candidate it reports not-found; with
exactly one candidate it returns that target exactly when its type is
"pod"; with two or more candidates — none of which has an empty node
name, which would reset the bucket — it reports not-found.  (Same-named
targets under a non-empty prefix are invisible to `Pod`, contrary to the
original claim.) -/
theorem c5_pod_lookup :
    (∀ (ts : List Target) (x : String), podCandidates ts x = [] →
      (setCache ts).pod x = none) ∧
    (∀ (ts : List Target) (x : String) (t : Target), podCandidates ts x = [t] →
      (setCache ts).pod x = if t.typ = "pod" then some t else none) ∧
    (∀ (ts : List Target) (x : String),
      2 ≤ (podCandidates ts x).length →
      (∀ t ∈ podCandidates ts x, t.nodename ≠ "") →
      (setCache ts).pod x = none) := by
  have hfind : ∀ (ts : List Target) (x : String),
      idxFind (setCache ts).index ⟨"", x, ""⟩ = bucketEvolve x none ts := by
    intro ts x
    show idxFind (buildIndex ts) ⟨"", x, ""⟩ = _
    rw [buildIndex, foldl_setStep_bucket]
    rfl
  refine ⟨?_, ?_, ?_⟩
  · intro ts x h
    unfold TargetCache.pod
    rw [hfind, bucketEvolve_nocand x ts none (podCandidates_nil_nocand x ts h)]
  · intro ts x t h
    unfold TargetCache.pod
    rw [hfind, bucketEvolve_single x t ts h]
    by_cases htyp : t.typ = "pod"
    · have hcap : (if t.typ ≠ "pod" then 10 else 1) = 1 := by simp [htyp]
      rw [hcap]
      by_cases hn : t.nodename = "" <;> simp [hn, htyp]
    · have hcap : (if t.typ ≠ "pod" then 10 else 1) = 10 := by simp [htyp]
      rw [hcap]
      by_cases hn : t.nodename = "" <;> simp [hn, htyp]
  · intro ts x h2 hall
    obtain ⟨l, hl, hlen⟩ := bucketEvolve_two x ts hall h2
    unfold TargetCache.pod
    rw [hfind, hl]
    cases l with
    | nil => simp at hlen
    | cons a l1 =>
      cases l1 with
      | nil => simp at hlen
      | cons b l2 => cases a <;> rfl

/-- C5, witness: a single pod candidate under the empty prefix is
returned. -/
theorem c5_witness :
    (setCache [c5target2]).pod "x" = some c5target2 := by
  have h := c5_pod_lookup.2.1 [c5target2] "x" c5target2 (by decide)
  rw [h]
  rfl

/-! ## Claim C2: rewriting a comment with a prior metadata block -/

set_option maxRecDepth 8192 in
/-- C2: the claim fails on the code.  For a header block whose comment
holds free text, a prior metadata block, and an end marker introducing a
following document, the cut `comment[:start[0]] + comment[start[0]+end[0]:]`
uses `end[0]` — an index relative to `comment[start[1]:]` — offset from
`start[0]` instead of `start[1]`.  Here the end marker sits immediately
after the metadata block, `end[0]` is 0, and the comment is reassembled
unchanged; after the fresh metadata is appended, the emitted block
contains the start marker twice. -/
theorem c2_marker_duplicated :
    editComment c2comment = c2comment ∧
    ((newStreamEditor none "" false).process c2block).map
      (fun p => countSub targetmarkerBytes p.1) = some 2 := by
  exact ⟨by decide, by decide⟩


/-! ## Claim C1: rewriting a header block with no prior comment -/

/-- C1: for every header block over a comment-free, well-sized option
list (in either byte order) buffered in full, the editor emits exactly
the same block layout with one fresh comment option placed first —
its value the metadata block opened by the start marker — followed by
the original options in their original order; the declared total length,
written at the front and at the end of the emitted block, equals the
emitted byte count and equals the original declared length plus the
encoded size of the inserted comment, i.e. its value length plus 4
rounded up to 4-byte alignment. -/
theorem c1_fresh_comment :
    ∀ (e : Endian) (opts : List PcapOption) (enc : List Nat)
      (tgt : Option Target) (filt : String) (noProm : Bool)
      (pe : StreamEditor) (Y : List Nat),
      pe = newStreamEditor tgt filt noProm →
      Y = targetmarkerBytes ++ pe.yamlBytes →
      encodeOpts e opts = some enc →
      (∀ o ∈ opts, 0 < o.code ∧ o.code ≠ OptComment ∧ o.code < 65536 ∧
        o.value.length < 65532) →
      Y.length < 65532 →
      28 + enc.length + align4 (4 + Y.length) < 4294967296 →
      ∃ bc, (⟨OptComment, Y⟩ : PcapOption).bytes e = some bc ∧
        bc.length = align4 (4 + Y.length) ∧
        pe.process (mkSHB e enc) =
          some (mkSHB e (bc ++ enc),
            { pe with
                endian := e
                passThrough := true
                shb := []
                shbLen := 28 + enc.length }) ∧
        (mkSHB e (bc ++ enc)).length = 28 + enc.length + bc.length ∧
        get32 e ((mkSHB e (bc ++ enc)).drop 4) = 28 + enc.length + bc.length ∧
        get32 e ((mkSHB e (bc ++ enc)).drop (24 + (bc ++ enc).length)) =
          28 + enc.length + bc.length ∧
        parseSHBOptions (mkSHB e (bc ++ enc)) e = some (opts, some ⟨OptComment, Y⟩) := by
  intro e opts enc tgt filt noProm pe Y hpe hY henc hok hYlen hsz
  subst hpe
  have halign := align4_of_mod (4 + Y.length)
  have hbc := bytes_padded ⟨OptComment, Y⟩ e hYlen
  set bc := put16 e OptComment ++ put16 e Y.length ++ Y ++
    (if Y.length % 4 ≠ 0 then List.replicate (4 - Y.length % 4) 0 else []) with hbcdef
  have hbclen : bc.length = align4 (4 + Y.length) :=
    bytes_padded_length ⟨OptComment, Y⟩ e hYlen bc hbc
  have hx : 28 + enc.length < 4294967296 := by omega
  have hproc : (newStreamEditor tgt filt noProm).process (mkSHB e enc) =
      StreamEditor.processSHB
        { newStreamEditor tgt filt noProm with
            shb := mkSHB e enc, endian := e, shbLen := 28 + enc.length } :=
    process_mkSHB (newStreamEditor tgt filt noProm) e enc rfl rfl rfl hx
  have hyaml : ({ newStreamEditor tgt filt noProm with
      shb := mkSHB e enc, endian := e,
      shbLen := 28 + enc.length } : StreamEditor).yamlBytes =
      (newStreamEditor tgt filt noProm).yamlBytes := rfl
  have hshb2 := processSHB_mkSHB
    { newStreamEditor tgt filt noProm with
        shb := mkSHB e enc, endian := e, shbLen := 28 + enc.length }
    e enc opts bc rfl rfl rfl henc hok hx (by rw [hyaml, ← hY]; exact hbc)
  have hlenc : (bc ++ enc).length = bc.length + enc.length := List.length_append bc enc
  refine ⟨bc, hbc, hbclen, ?_, ?_, ?_, ?_, ?_⟩
  · rw [hproc, hshb2]
  · rw [length_mkSHB, hlenc]
    omega
  · rw [mkSHB_declared, hlenc]
    omega
  · rw [mkSHB_trailing, hlenc]
    omega
  · refine parseSHBOptions_comment_first e bc enc ⟨OptComment, Y⟩ opts rfl hYlen
      hbc henc hok ?_
    rw [hlenc]
    omega

/-- C1, witness: the minimal big-endian block with no options (the
end-to-end scenario of §8 of the specification, declared length 28,
default target) gains one comment option and the recomputed length. -/
theorem c1_witness :
    ∃ bc, (newStreamEditor none "" false).process (mkSHB .big []) =
      some (mkSHB .big (bc ++ []),
        { newStreamEditor none "" false with
            endian := .big
            passThrough := true
            shb := []
            shbLen := 28 }) ∧ bc.length = 92 := by
  obtain ⟨bc, h1, h2, h3, h4⟩ := c1_fresh_comment .big [] [] none "" false
    (newStreamEditor none "" false)
    (targetmarkerBytes ++ (newStreamEditor none "" false).yamlBytes)
    rfl rfl rfl (by simp) (by decide) (by decide)
  refine ⟨bc, by simpa using h3, ?_⟩
  rw [h2]
  decide

end Csharg
